import Mathlib

/-!
Verification of the erasure-coded object storage engine
(`pkgs/storage/encodedstorage/encoded_storage.go`).

The engine code is embedded shallowly: the Go functions `NewStorage`,
`Put`, `Get`, `storeBlocks`, `readObject`, `getBlockSlices`, `getSlice`
are translated into pure Lean functions over explicit state.  The
external collaborators that are not part of the repository source
(the stream chunker `split.SplitStream`, the erasure codec
`erasure.Encode/Decode`, the per-backend store `appendstorage`, and the
durable index file) are modelled from the specification's interface
contracts, as documented on each definition.
-/

namespace Minio

/-- Bytes are modelled as natural numbers; only their identity matters here. -/
abbrev Byte := Nat

/-- Go `error` values are modelled as strings (the message). -/
abbrev Err := String

/-- Go map lookup over an association list: the most recent binding wins. -/
def mapLookup {α : Type} : List (String × α) → String → Option α
  | [], _ => none
  | (k, v) :: rest, key => if key = k then some v else mapLookup rest key

/-- Go map update: the new binding shadows any older one. -/
def mapInsert {α : Type} (m : List (String × α)) (k : String) (v : α) : List (String × α) :=
  (k, v) :: m

theorem mapLookup_insert_self {α : Type} (m : List (String × α)) (k : String) (v : α) :
    mapLookup (mapInsert m k v) k = some v := by
  simp [mapInsert, mapLookup]

theorem mapLookup_insert_ne {α : Type} (m : List (String × α)) {k k' : String} (v : α)
    (h : k' ≠ k) : mapLookup (mapInsert m k v) k' = mapLookup m k' := by
  simp [mapInsert, mapLookup, h]

/-- Decimal digits of a natural number, most significant first, driven by
explicit fuel so that it evaluates by kernel reduction.  With fuel at least
`n` this is the usual decimal expansion. -/
def natDigitsGo : Nat → Nat → List Nat
  | 0, n => [n]
  | fuel + 1, n => if n < 10 then [n] else natDigitsGo fuel (n / 10) ++ [n % 10]

/-- Decimal digits of `n` (fuel `n` always suffices). -/
def natDigits (n : Nat) : List Nat := natDigitsGo n n

/-- Value of a digit list read back as a decimal number. -/
def digitsVal (ds : List Nat) : Nat := ds.foldl (fun a d => 10 * a + d) 0

theorem digitsVal_append (xs : List Nat) (d : Nat) :
    digitsVal (xs ++ [d]) = 10 * digitsVal xs + d := by
  simp [digitsVal, List.foldl_append]

theorem digitsVal_natDigitsGo : ∀ fuel n, digitsVal (natDigitsGo fuel n) = n
  | 0, n => by simp [natDigitsGo, digitsVal]
  | fuel + 1, n => by
    by_cases h : n < 10
    · simp [natDigitsGo, h, digitsVal]
    · rw [natDigitsGo]
      simp only [h, if_false]
      rw [digitsVal_append, digitsVal_natDigitsGo fuel (n / 10)]
      omega

theorem natDigits_inj {a b : Nat} (h : natDigits a = natDigits b) : a = b := by
  have ha := digitsVal_natDigitsGo a a
  have hb := digitsVal_natDigitsGo b b
  rw [natDigits] at h
  rw [← ha, ← hb, h]
  rfl

theorem natDigitsGo_lt : ∀ fuel n, n ≤ fuel → ∀ d ∈ natDigitsGo fuel n, d < 10 := by
  intro fuel
  induction fuel with
  | zero =>
    intro n hn d hd
    interval_cases n
    simp [natDigitsGo] at hd
    omega
  | succ fuel ih =>
    intro n hn d hd
    by_cases h : n < 10
    · simp [natDigitsGo, h] at hd
      omega
    · rw [natDigitsGo] at hd
      simp only [h, if_false, List.mem_append, List.mem_singleton] at hd
      rcases hd with hd | hd
      · have hdiv : n / 10 ≤ fuel := by
          have : n / 10 < n := Nat.div_lt_self (by omega) (by omega)
          omega
        exact ih (n / 10) hdiv d hd
      · omega

theorem natDigits_lt (n : Nat) : ∀ d ∈ natDigits n, d < 10 :=
  natDigitsGo_lt n n (Nat.le_refl n)

/-- The ASCII character of a decimal digit. -/
def digitChar (d : Nat) : Char := Char.ofNat (48 + d)

theorem digitChar_inj : ∀ d < 10, ∀ e < 10, digitChar d = digitChar e → d = e := by
  decide

theorem map_digitChar_inj : ∀ xs ys : List Nat, (∀ d ∈ xs, d < 10) → (∀ d ∈ ys, d < 10) →
    xs.map digitChar = ys.map digitChar → xs = ys
  | [], [], _, _, _ => rfl
  | [], _ :: _, _, _, h => by simp at h
  | _ :: _, [], _, _, h => by simp at h
  | x :: xs, y :: ys, hx, hy, h => by
    simp only [List.map_cons, List.cons.injEq] at h
    have hxy : x = y :=
      digitChar_inj x (hx x (by simp)) y (hy y (by simp)) h.1
    have htl : xs = ys :=
      map_digitChar_inj xs ys (fun d hd => hx d (by simp [hd])) (fun d hd => hy d (by simp [hd])) h.2
    rw [hxy, htl]

/-- Model of Go `strconv.Itoa` for the non-negative chunk counter: the usual
decimal rendering (`itoa 0 = "0"`, no sign, no leading zeros). -/
def itoa (n : Nat) : String := ⟨(natDigits n).map digitChar⟩

theorem itoa_inj {a b : Nat} (h : itoa a = itoa b) : a = b := by
  have hd : (natDigits a).map digitChar = (natDigits b).map digitChar :=
    congrArg String.data h
  exact natDigits_inj (map_digitChar_inj _ _ (natDigits_lt a) (natDigits_lt b) hd)

/-- The per-chunk shard keys `path + "$" + strconv.Itoa i` are distinct for
distinct chunk numbers. -/
theorem chunkKey_ne (path : String) {a b : Nat} (h : a ≠ b) :
    path ++ "$" ++ itoa a ≠ path ++ "$" ++ itoa b := by
  intro heq
  have hd := congrArg String.data heq
  simp [String.data_append] at hd
  exact h (itoa_inj (String.ext hd))

/-- Modelled from the spec, section 6 (the `appendstorage` package is not part
of the source under review): a backend stores named byte blobs; `put` may fail,
`get` may fail, and absence of a key is itself a `get` error.  The two fault
predicates describe the external backend's behaviour (which keys it fails on);
the reference engine never inspects them directly. -/
structure Backend where
  store : List (String × List Byte)
  putFails : String → Bool
  getFails : String → Bool

/-- Modelled from the spec, section 6: `put(key, data) -> error`.
On success the blob is stored under the key (overwriting); on failure the
backend is unchanged and an error is reported. -/
def Backend.put (b : Backend) (key : String) (data : List Byte) : Backend × Option Err :=
  if b.putFails key then (b, some ("put failed"))
  else ({ b with store := mapInsert b.store key data }, none)

/-- Modelled from the spec, section 6: `get(key) -> (data, error)`, where a
missing key is reported as an error. -/
def Backend.get (b : Backend) (key : String) : Except Err (List Byte) :=
  if b.getFails key then .error ("get failed")
  else
    match mapLookup b.store key with
    | some data => .ok data
    | none => .error ("not found")

/-- A fresh honest backend, as provisioned by `appendstorage.NewStorage` for a
storage root with no pre-existing node files. -/
def defaultBackend : Backend :=
  { store := [], putFails := fun _ => false, getFails := fun _ => false }

/-- Modelled from the spec, sections 4.2 and 6 (the `erasure` package is not
part of the source under review): the codec is a pure transform.  `encodeShards`
yields the K+M shards of a chunk; `decode` reconstructs a chunk from shards and
its original length; `paramsOk` tells whether `ParseEncoderParams` accepts the
configured `(K, M, CAUCHY)` parameters. -/
structure Codec where
  encodeShards : List Byte → List (List Byte)
  decode : List (List Byte) → Nat → Except Err (List Byte)
  paramsOk : Bool

/-- Modelled from the spec, section 4.2: `encode` returns the shards together
with the chunk's original (pre-encoding) byte length. -/
def Codec.encode (c : Codec) (chunk : List Byte) : List (List Byte) × Nat :=
  (c.encodeShards chunk, chunk.length)

/-- `StorageBlockEntry` from the source: per-chunk index metadata. -/
structure StorageBlockEntry where
  Index : Nat
  Length : Nat
deriving DecidableEq

/-- `StorageEntry` from the source: per-object index metadata. -/
structure StorageEntry where
  Path : String
  Md5sum : String
  Crc : Nat
  Blocks : List StorageBlockEntry
deriving DecidableEq

/-- The `encodedStorage` struct from the source, minus the backend handles:
the backends live in `Disk.nodes` (the handles are views of the node files). -/
structure EncodedStorage where
  RootDir : String
  K : Nat
  M : Nat
  BlockSize : Nat
  objects : List (String × StorageEntry)

/-- The durable state under one storage root: the serialized index snapshot
(`none` when the index file does not exist) and the 16 backend node stores.
Modelled from the spec, section 6 (durable index record) with `gob`
serialization abstracted as the identity on the map. -/
structure Disk where
  index : Option (List (String × StorageEntry))
  nodes : List Backend

/-- `SplitMessage` from the `split` package interface: a chunk of data or a
terminal chunker error. -/
structure SplitMessage where
  Data : List Byte
  Err : Option Err

/-- Modelled from the spec, section 6 (the `split` package is not part of the
source under review): cut the stream into `blockSize`-sized chunks, the last
one possibly shorter; driven by fuel so it evaluates by kernel reduction
(fuel `data.length` always suffices). -/
def splitGo (blockSize : Nat) : Nat → List Byte → List (List Byte)
  | 0, data => if data.isEmpty then [] else [data]
  | fuel + 1, data =>
    if data.isEmpty then []
    else if blockSize = 0 then [data]
    else data.take blockSize :: splitGo blockSize fuel (data.drop blockSize)

/-- Modelled from the spec, section 6: the chunk sequence of a byte stream. -/
def splitStream (blockSize : Nat) (data : List Byte) : List (List Byte) :=
  splitGo blockSize data.length data

/-- Modelled from the spec, section 6: an error-free source yields the chunk
sequence with no error message; a chunker failure would surface as a message
with `Err` set. -/
def splitMessages (blockSize : Nat) (data : List Byte) : List SplitMessage :=
  (splitStream blockSize data).map (fun chunk => { Data := chunk, Err := none })

/-- The `storeResponse` struct from the source (per-backend read result). -/
structure storeResponse where
  data : List Byte
  err : Option Err
deriving DecidableEq

/-- `getSlice` from the source: one backend read, with `nil` data on error. -/
def getSlice (b : Backend) (path : String) : storeResponse :=
  match b.get path with
  | .error e => { data := [], err := some e }
  | .ok data => { data := data, err := none }

/-- `getBlockSlices` from the source: query every backend, in pool order, with
the same key, and return one response per backend in that order. -/
def getBlockSlices (nodes : List Backend) (objectPath : String) : List storeResponse :=
  nodes.map (fun b => getSlice b objectPath)

/-- The body of `storeBlocks` from the source: backend `i` receives
`blocks[i]`.  The result is `none` exactly when the Go code would panic with an
index-out-of-range access `blocks[i]` for some backend index `i`. -/
def storeBlocksGo (path : String) (blocks : List (List Byte)) :
    Nat → List Backend → Option (List Backend × List Err)
  | _, [] => some ([], [])
  | i, node :: rest =>
    match blocks[i]? with
    | none => none
    | some shard =>
      match node.put path shard, storeBlocksGo path blocks (i + 1) rest with
      | _, none => none
      | (node', errOpt), some (rest', errs) =>
        some (node' :: rest',
          match errOpt with
          | none => errs
          | some err => err :: errs)

/-- `storeBlocks` from the source: fan one chunk's shards out to all backends
and collect the non-nil errors in backend order. -/
def storeBlocks (nodes : List Backend) (path : String) (blocks : List (List Byte)) :
    Option (List Backend × List Err) :=
  storeBlocksGo path blocks 0 nodes

/-- The chunk loop of `Put` from the source (lines 94-116): for each chunk
message, abort on a chunker error, encode, store the shards under
`path + "$" + i`, abort on the first store error, and append a
`StorageBlockEntry{Index: i, Length: length}`.  `none` models the Go panic in
`storeBlocks`. -/
def putLoop (c : Codec) (objectPath : String) :
    List Backend → Nat → List StorageBlockEntry → List SplitMessage →
    Option (List Backend × Except Err (List StorageBlockEntry))
  | nodes, _, acc, [] => some (nodes, .ok acc)
  | nodes, i, acc, msg :: rest =>
    match msg.Err with
    | some e => some (nodes, .error e)
    | none =>
      let (blocks, length) := c.encode msg.Data
      match storeBlocks nodes (objectPath ++ "$" ++ itoa i) blocks with
      | none => none
      | some (nodes', storeErrors) =>
        match storeErrors with
        | err :: _ => some (nodes', .error err)
        | [] => putLoop c objectPath nodes' (i + 1) (acc ++ [{ Index := i, Length := length }]) rest

/-- `Put` from the source, over an explicit chunk-message stream: parse the
encoder parameters, run the chunk loop, and on success insert the new
`StorageEntry` into the in-memory map and rewrite the durable index snapshot.
On error the index (in memory and on disk) is untouched; shards already
written remain on the backends.  `none` models the Go panic. -/
def putStream (c : Codec) (e : EncodedStorage) (disk : Disk) (objectPath : String)
    (msgs : List SplitMessage) : Option (EncodedStorage × Disk × Option Err) :=
  if c.paramsOk = false then some (e, disk, some ("params error"))
  else
    match putLoop c objectPath disk.nodes 0 [] msgs with
    | none => none
    | some (nodes', .error err) => some (e, { disk with nodes := nodes' }, some err)
    | some (nodes', .ok blockList) =>
      let entry : StorageEntry :=
        { Path := objectPath, Md5sum := "md5sum", Crc := 24, Blocks := blockList }
      let objects' := mapInsert e.objects objectPath entry
      some ({ e with objects := objects' },
            { disk with nodes := nodes', index := some objects' }, none)

/-- `Put` from the source: split the object stream into chunks (modelled from
the spec for an error-free source) and run the chunk loop. -/
def Put (c : Codec) (e : EncodedStorage) (disk : Disk) (objectPath : String)
    (object : List Byte) : Option (EncodedStorage × Disk × Option Err) :=
  putStream c e disk objectPath (splitMessages e.BlockSize object)

/-- What a consumer of the read pipe observes: the bytes delivered before the
pipe was closed, and the error the close carried (`none` for a clean EOF;
`CloseWithError(nil)` also yields EOF for the reader). -/
structure ReadResult where
  delivered : List Byte
  closeErr : Option Err
deriving DecidableEq

/-- The chunk loop of `readObject` from the source (lines 168-191): for block
`i`, collect one response per backend under `path + "$" + i`; if any response
carries an error, the code calls `writer.CloseWithError(err)` where `err` is
the (shadowed) `ParseEncoderParams` error — not the slice error — so the
consumer sees `paramsErr`; otherwise decode with the recorded original length,
closing with the decode error on failure, and append the decoded bytes. -/
def readLoop (c : Codec) (nodes : List Backend) (objectPath : String)
    (paramsErr : Option Err) : Nat → List StorageBlockEntry → ReadResult
  | _, [] => { delivered := [], closeErr := none }
  | i, chunk :: rest =>
    let blockSlices := getBlockSlices nodes (objectPath ++ "$" ++ itoa i)
    if blockSlices.any (fun s => s.err.isSome) then
      { delivered := [], closeErr := paramsErr }
    else
      match c.decode (blockSlices.map (fun s => s.data)) chunk.Length with
      | .error e => { delivered := [], closeErr := some e }
      | .ok data =>
        let rest' := readLoop c nodes objectPath paramsErr (i + 1) rest
        { delivered := data ++ rest'.delivered, closeErr := rest'.closeErr }

/-- `readObject` from the source: `ParseEncoderParams` is re-run (its error is
checked against an empty branch and otherwise only survives as the shadowed
`err` used by the slice-error `CloseWithError`), then the chunk loop runs over
the entry's blocks. -/
def readObject (c : Codec) (nodes : List Backend) (objectPath : String)
    (entry : StorageEntry) : ReadResult :=
  let paramsErr : Option Err := if c.paramsOk then none else some ("params error")
  readLoop c nodes objectPath paramsErr 0 entry.Blocks

/-- `Get` from the source: a missing path yields `(nil, nil)`; otherwise the
stream produced by `readObject` is returned with a nil error. -/
def Get (c : Codec) (e : EncodedStorage) (disk : Disk) (objectPath : String) :
    Option ReadResult × Option Err :=
  match mapLookup e.objects objectPath with
  | none => (none, none)
  | some entry => (some (readObject c disk.nodes objectPath entry), none)

/-- `NewStorage` from the source: always provision exactly 16 backend handles
(`appendstorage.NewStorage(rootDir, i)` for `i = 0..15`, modelled from the
spec as reopening the node file, or a fresh empty node when absent), then load
the index snapshot if the index file exists.  No check relates 16 to `k + m`. -/
def NewStorage (disk : Disk) (rootDir : String) (k m : Nat) (blockSize : Nat) :
    Except Err (EncodedStorage × Disk) :=
  let storageNodes := (List.range 16).map (fun i => disk.nodes.getD i defaultBackend)
  let objects := disk.index.getD []
  .ok ({ RootDir := rootDir, K := k, M := m, BlockSize := blockSize, objects := objects },
       { disk with nodes := storageNodes })

/-! ### Pure descriptions of the loops, used to state invariants -/

/-- The block entries `Put` accumulates for chunks starting at counter `i`. -/
def entriesFrom : Nat → List (List Byte) → List StorageBlockEntry
  | _, [] => []
  | i, chunk :: rest => { Index := i, Length := chunk.length } :: entriesFrom (i + 1) rest

/-- The backend states after one chunk's fan-out on honest backends: backend
`j` (counting from offset `j0`) stores `blocks[j0 + j]` under the key. -/
def putAll (key : String) (blocks : List (List Byte)) : Nat → List Backend → List Backend
  | _, [] => []
  | j, b :: rest =>
    { b with store := mapInsert b.store key ((blocks[j]?).getD []) } :: putAll key blocks (j + 1) rest

/-- The backend states after storing every chunk (counters from `i`) on honest
backends. -/
def storeAll (c : Codec) (objectPath : String) :
    Nat → List Backend → List (List Byte) → List Backend
  | _, nodes, [] => nodes
  | i, nodes, chunk :: rest =>
    storeAll c objectPath (i + 1)
      (putAll (objectPath ++ "$" ++ itoa i) (c.encodeShards chunk) 0 nodes) rest

theorem entriesFrom_length (i : Nat) (chunks : List (List Byte)) :
    (entriesFrom i chunks).length = chunks.length := by
  induction chunks generalizing i with
  | nil => rfl
  | cons chunk rest ih => simp [entriesFrom, ih]

theorem entriesFrom_get (chunks : List (List Byte)) :
    ∀ (i pos : Nat) (h : pos < (entriesFrom i chunks).length) (h2 : pos < chunks.length),
      (entriesFrom i chunks).get ⟨pos, h⟩ =
        { Index := i + pos, Length := (chunks.get ⟨pos, h2⟩).length } := by
  induction chunks with
  | nil => intro i pos h h2; simp at h2
  | cons chunk rest ih =>
    intro i pos h h2
    cases pos with
    | zero => simp [entriesFrom]
    | succ pos =>
      have h' : pos < (entriesFrom (i + 1) rest).length := by
        simpa [entriesFrom] using h
      have h2' : pos < rest.length := by simpa using h2
      have := ih (i + 1) pos h' h2'
      simp only [entriesFrom, List.get_cons_succ, List.get_cons_succ, this]
      congr 1
      omega

theorem putAll_length (key : String) (blocks : List (List Byte)) :
    ∀ (j : Nat) (nodes : List Backend), (putAll key blocks j nodes).length = nodes.length := by
  intro j nodes
  induction nodes generalizing j with
  | nil => rfl
  | cons b rest ih => simp [putAll, ih]

theorem putAll_get (key : String) (blocks : List (List Byte)) :
    ∀ (nodes : List Backend) (j t : Nat) (h : t < nodes.length)
      (h' : t < (putAll key blocks j nodes).length),
      (putAll key blocks j nodes).get ⟨t, h'⟩ =
        { nodes.get ⟨t, h⟩ with
          store := mapInsert (nodes.get ⟨t, h⟩).store key ((blocks[j + t]?).getD []) } := by
  intro nodes
  induction nodes with
  | nil => intro j t h; simp at h
  | cons b rest ih =>
    intro j t h h'
    cases t with
    | zero => simp [putAll]
    | succ t =>
      have ht : t < rest.length := by
        simp only [List.length_cons] at h
        omega
      have ht' : t < (putAll key blocks (j + 1) rest).length := by
        rw [putAll_length]
        exact ht
      have harith : j + 1 + t = j + (t + 1) := by omega
      have hrec := ih (j + 1) t ht ht'
      rw [harith] at hrec
      simp only [putAll, List.get_cons_succ]
      exact hrec

theorem putAll_mem (key : String) (blocks : List (List Byte)) :
    ∀ (nodes : List Backend) (j : Nat) (b' : Backend), b' ∈ putAll key blocks j nodes →
      ∃ b ∈ nodes, b'.putFails = b.putFails ∧ b'.getFails = b.getFails := by
  intro nodes
  induction nodes with
  | nil => intro j b' h; simp [putAll] at h
  | cons b rest ih =>
    intro j b' h
    simp only [putAll, List.mem_cons] at h
    rcases h with h | h
    · exact ⟨b, by simp, by rw [h], by rw [h]⟩
    · obtain ⟨b0, hb0, h1, h2⟩ := ih (j + 1) b' h
      exact ⟨b0, by simp [hb0], h1, h2⟩

/-! ### `storeBlocks` lemmas -/

theorem storeBlocksGo_none (path : String) (blocks : List (List Byte)) :
    ∀ (nodes : List Backend) (i : Nat), i ≤ blocks.length →
      blocks.length < i + nodes.length →
      storeBlocksGo path blocks i nodes = none := by
  intro nodes
  induction nodes with
  | nil =>
    intro i hle h
    simp only [List.length_nil] at h
    omega
  | cons b rest ih =>
    intro i hle h
    simp only [List.length_cons] at h
    by_cases hi : i < blocks.length
    · have hrange : blocks[i]? = some (blocks.get ⟨i, hi⟩) := List.getElem?_eq_getElem hi
      rw [storeBlocksGo, hrange]
      have hrec := ih (i + 1) (by omega) (by omega)
      rw [hrec]
    · have hrange : blocks[i]? = none := List.getElem?_eq_none (by omega)
      rw [storeBlocksGo, hrange]

theorem storeBlocksGo_some (path : String) (blocks : List (List Byte)) :
    ∀ (nodes : List Backend) (i : Nat), i + nodes.length ≤ blocks.length →
      ∃ nodes' errs, storeBlocksGo path blocks i nodes = some (nodes', errs) ∧
        nodes'.length = nodes.length ∧
        (∀ (t : Nat) (h : t < nodes.length) (h' : t < nodes'.length),
          (nodes'.get ⟨t, h'⟩).putFails = (nodes.get ⟨t, h⟩).putFails ∧
          (nodes'.get ⟨t, h'⟩).getFails = (nodes.get ⟨t, h⟩).getFails) := by
  intro nodes
  induction nodes with
  | nil =>
    intro i _
    exact ⟨[], [], rfl, rfl, by intro t h; simp at h⟩
  | cons b rest ih =>
    intro i hlen
    simp only [List.length_cons] at hlen
    have hi : i < blocks.length := by omega
    have hrange : blocks[i]? = some (blocks.get ⟨i, hi⟩) := List.getElem?_eq_getElem hi
    obtain ⟨rest', errs, hrec, hlen', hpres⟩ := ih (i + 1) (by omega)
    by_cases hf : b.putFails path
    · refine ⟨b :: rest', ("put failed") :: errs, ?_, by simp [hlen'], ?_⟩
      · rw [storeBlocksGo, hrange, hrec]
        simp [Backend.put, hf]
      · intro t h h'
        cases t with
        | zero => simp
        | succ t =>
          have h1 : t < rest.length := by
            simp only [List.length_cons] at h
            omega
          have h2 : t < rest'.length := by
            simp only [List.length_cons] at h'
            omega
          simpa using hpres t h1 h2
    · refine ⟨{ b with store := mapInsert b.store path ((blocks[i]?).getD []) } :: rest',
        errs, ?_, by simp [hlen'], ?_⟩
      · rw [storeBlocksGo, hrange, hrec]
        simp [Backend.put, hf, hrange]
      · intro t h h'
        cases t with
        | zero => simp
        | succ t =>
          have h1 : t < rest.length := by
            simp only [List.length_cons] at h
            omega
          have h2 : t < rest'.length := by
            simp only [List.length_cons] at h'
            omega
          simpa using hpres t h1 h2

theorem storeBlocksGo_honest (path : String) (blocks : List (List Byte)) :
    ∀ (nodes : List Backend) (i : Nat),
      (∀ b ∈ nodes, ∀ key, b.putFails key = false) →
      i + nodes.length ≤ blocks.length →
      storeBlocksGo path blocks i nodes = some (putAll path blocks i nodes, []) := by
  intro nodes
  induction nodes with
  | nil => intro i _ _; rfl
  | cons b rest ih =>
    intro i hhon hlen
    simp only [List.length_cons] at hlen
    have hi : i < blocks.length := by omega
    have hrange : blocks[i]? = some (blocks.get ⟨i, hi⟩) := List.getElem?_eq_getElem hi
    have hb : b.putFails path = false := hhon b (by simp) path
    have hrec := ih (i + 1) (fun b' hb' => hhon b' (by simp [hb'])) (by omega)
    rw [storeBlocksGo, hrange, hrec]
    simp [Backend.put, hb, putAll, hrange]

theorem storeBlocksGo_fail (path : String) (blocks : List (List Byte)) :
    ∀ (nodes : List Backend) (i j : Nat) (hj : j < nodes.length),
      i + nodes.length ≤ blocks.length →
      (nodes.get ⟨j, hj⟩).putFails path = true →
      ∃ nodes' errs, storeBlocksGo path blocks i nodes = some (nodes', errs) ∧ errs ≠ [] := by
  intro nodes
  induction nodes with
  | nil => intro i j hj; simp at hj
  | cons b rest ih =>
    intro i j hj hlen hfail
    simp only [List.length_cons] at hlen
    have hi : i < blocks.length := by omega
    have hrange : blocks[i]? = some (blocks.get ⟨i, hi⟩) := List.getElem?_eq_getElem hi
    cases j with
    | zero =>
      simp only [List.get] at hfail
      obtain ⟨rest', errs, hrec, -, -⟩ := storeBlocksGo_some path blocks rest (i + 1)
        (by omega)
      refine ⟨b :: rest', ("put failed") :: errs, ?_, by simp⟩
      rw [storeBlocksGo, hrange, hrec]
      simp [Backend.put, hfail]
    | succ j =>
      have hj' : j < rest.length := by
        simp only [List.length_cons] at hj
        omega
      obtain ⟨rest', errs, hrec, hne⟩ := ih (i + 1) j hj' (by omega)
        (by simpa using hfail)
      cases herrs : errs with
      | nil => exact absurd herrs hne
      | cons err0 errtl =>
        rw [herrs] at hrec
        by_cases hf : b.putFails path
        · refine ⟨b :: rest', ("put failed") :: err0 :: errtl, ?_, by simp⟩
          rw [storeBlocksGo, hrange, hrec]
          simp [Backend.put, hf]
        · refine ⟨{ b with store := mapInsert b.store path ((blocks[i]?).getD []) } :: rest',
            err0 :: errtl, ?_, by simp⟩
          rw [storeBlocksGo, hrange, hrec]
          simp [Backend.put, hf, hrange]

/-! ### `storeAll` lemmas: the state of the backends after a full honest `Put` -/

theorem storeAll_length (c : Codec) (objectPath : String) :
    ∀ (chunks : List (List Byte)) (i : Nat) (nodes : List Backend),
      (storeAll c objectPath i nodes chunks).length = nodes.length := by
  intro chunks
  induction chunks with
  | nil => intro i nodes; rfl
  | cons chunk rest ih =>
    intro i nodes
    rw [storeAll, ih, putAll_length]

theorem storeAll_mem (c : Codec) (objectPath : String) :
    ∀ (chunks : List (List Byte)) (i : Nat) (nodes : List Backend) (b' : Backend),
      b' ∈ storeAll c objectPath i nodes chunks →
      ∃ b ∈ nodes, b'.putFails = b.putFails ∧ b'.getFails = b.getFails := by
  intro chunks
  induction chunks with
  | nil => intro i nodes b' h; exact ⟨b', h, rfl, rfl⟩
  | cons chunk rest ih =>
    intro i nodes b' h
    rw [storeAll] at h
    obtain ⟨b1, hb1, hp1, hg1⟩ := ih (i + 1) _ b' h
    obtain ⟨b0, hb0, hp0, hg0⟩ := putAll_mem _ _ nodes 0 b1 hb1
    exact ⟨b0, hb0, by rw [hp1, hp0], by rw [hg1, hg0]⟩

theorem storeAll_lookup_old (c : Codec) (objectPath : String) :
    ∀ (chunks : List (List Byte)) (i : Nat) (nodes : List Backend) (t : Nat)
      (h : t < nodes.length) (h' : t < (storeAll c objectPath i nodes chunks).length)
      (q : Nat), q < i →
      mapLookup ((storeAll c objectPath i nodes chunks).get ⟨t, h'⟩).store
          (objectPath ++ "$" ++ itoa q) =
        mapLookup (nodes.get ⟨t, h⟩).store (objectPath ++ "$" ++ itoa q) := by
  intro chunks
  induction chunks with
  | nil => intro i nodes t h h' q hq; rfl
  | cons chunk rest ih =>
    intro i nodes t h h' q hq
    simp only [storeAll] at h' ⊢
    have hpa : t < (putAll (objectPath ++ "$" ++ itoa i) (c.encodeShards chunk) 0 nodes).length := by
      rw [putAll_length]
      exact h
    have step := ih (i + 1) _ t hpa h' q (by omega)
    rw [step, putAll_get _ _ nodes 0 t h hpa]
    exact mapLookup_insert_ne _ _ (chunkKey_ne objectPath (by omega))

theorem storeAll_lookup (c : Codec) (objectPath : String) :
    ∀ (chunks : List (List Byte)) (i : Nat) (nodes : List Backend) (t : Nat)
      (h : t < nodes.length) (h' : t < (storeAll c objectPath i nodes chunks).length)
      (pos : Nat) (hpos : pos < chunks.length),
      mapLookup ((storeAll c objectPath i nodes chunks).get ⟨t, h'⟩).store
          (objectPath ++ "$" ++ itoa (i + pos)) =
        some (((c.encodeShards (chunks.get ⟨pos, hpos⟩))[t]?).getD []) := by
  intro chunks
  induction chunks with
  | nil => intro i nodes t h h' pos hpos; simp at hpos
  | cons chunk rest ih =>
    intro i nodes t h h' pos hpos
    simp only [storeAll] at h' ⊢
    have hpa : t < (putAll (objectPath ++ "$" ++ itoa i) (c.encodeShards chunk) 0 nodes).length := by
      rw [putAll_length]
      exact h
    cases pos with
    | zero =>
      have hold := storeAll_lookup_old c objectPath rest (i + 1) _ t hpa h' i (by omega)
      simp only [Nat.add_zero]
      rw [hold, putAll_get _ _ nodes 0 t h hpa, List.get]
      simp [mapLookup_insert_self]
    | succ pos =>
      have hpos' : pos < rest.length := by
        simp only [List.length_cons] at hpos
        omega
      have harith : i + 1 + pos = i + (pos + 1) := by omega
      have := ih (i + 1) _ t hpa h' pos hpos'
      rw [harith] at this
      rw [this, List.get]

/-! ### The `Put` chunk loop on honest backends -/

theorem putLoop_ok (c : Codec) (objectPath : String) :
    ∀ (chunks : List (List Byte)) (nodes : List Backend) (i : Nat)
      (acc : List StorageBlockEntry),
      (∀ b ∈ nodes, ∀ key, b.putFails key = false) →
      (∀ ch ∈ chunks, nodes.length ≤ (c.encodeShards ch).length) →
      putLoop c objectPath nodes i acc (chunks.map (fun ch => { Data := ch, Err := none })) =
        some (storeAll c objectPath i nodes chunks, .ok (acc ++ entriesFrom i chunks)) := by
  intro chunks
  induction chunks with
  | nil =>
    intro nodes i acc _ _
    simp [putLoop, storeAll, entriesFrom]
  | cons chunk rest ih =>
    intro nodes i acc hhon hlen
    rw [List.map_cons, putLoop]
    simp only [Codec.encode]
    have hstore : storeBlocks nodes (objectPath ++ "$" ++ itoa i) (c.encodeShards chunk) =
        some (putAll (objectPath ++ "$" ++ itoa i) (c.encodeShards chunk) 0 nodes, []) :=
      storeBlocksGo_honest _ _ nodes 0 hhon (by simpa using hlen chunk (by simp))
    simp only [hstore]
    have hhon' : ∀ b ∈ putAll (objectPath ++ "$" ++ itoa i) (c.encodeShards chunk) 0 nodes,
        ∀ key, b.putFails key = false := by
      intro b' hb' key
      obtain ⟨b, hb, hp, -⟩ := putAll_mem _ _ nodes 0 b' hb'
      rw [hp]
      exact hhon b hb key
    have hlen' : ∀ ch ∈ rest,
        (putAll (objectPath ++ "$" ++ itoa i) (c.encodeShards chunk) 0 nodes).length ≤
          (c.encodeShards ch).length := by
      intro ch hch
      rw [putAll_length]
      exact hlen ch (by simp [hch])
    refine (ih _ (i + 1) (acc ++ [{ Index := i, Length := chunk.length }]) hhon' hlen').trans ?_
    simp [storeAll, entriesFrom]

/-! ### The chunker: joining the chunks gives back the stream -/

theorem splitGo_join (blockSize : Nat) :
    ∀ (fuel : Nat) (data : List Byte), (splitGo blockSize fuel data).flatten = data := by
  intro fuel
  induction fuel with
  | zero =>
    intro data
    by_cases h : data.isEmpty
    · rw [splitGo]
      simp_all [List.isEmpty_iff]
    · rw [splitGo]
      simp [h]
  | succ fuel ih =>
    intro data
    by_cases h : data.isEmpty
    · rw [splitGo]
      simp_all [List.isEmpty_iff]
    · by_cases hbs : blockSize = 0
      · rw [splitGo]
        simp [h, hbs]
      · rw [splitGo, if_neg h, if_neg hbs, List.flatten_cons, ih (data.drop blockSize)]
        exact List.take_append_drop blockSize data

theorem splitStream_join (blockSize : Nat) (data : List Byte) :
    (splitStream blockSize data).flatten = data :=
  splitGo_join blockSize data.length data

/-! ### The read loop on intact shards -/

theorem readLoop_ok (c : Codec) (nodes : List Backend) (objectPath : String)
    (paramsErr : Option Err)
    (hdec : ∀ ch : List Byte, c.decode (c.encodeShards ch) ch.length = .ok ch) :
    ∀ (chunks : List (List Byte)) (i : Nat),
      (∀ (pos : Nat) (hpos : pos < chunks.length),
        getBlockSlices nodes (objectPath ++ "$" ++ itoa (i + pos)) =
          (c.encodeShards (chunks.get ⟨pos, hpos⟩)).map
            (fun s => { data := s, err := none })) →
      readLoop c nodes objectPath paramsErr i (entriesFrom i chunks) =
        { delivered := chunks.flatten, closeErr := none } := by
  intro chunks
  induction chunks with
  | nil => intro i _; simp [entriesFrom, readLoop]
  | cons chunk rest ih =>
    intro i hslices
    have h0 := hslices 0 (by simp)
    rw [Nat.add_zero] at h0
    rw [entriesFrom, readLoop, h0]
    have hany : ((c.encodeShards (((chunk :: rest) : List (List Byte)).get ⟨0, by simp⟩)).map
        (fun s => ({ data := s, err := none } : storeResponse))).any
          (fun s => s.err.isSome) = false := by
      simp [List.any_map, Function.comp]
    rw [hany]
    simp only [Bool.false_eq_true, if_false, List.map_map]
    have hdata : ((fun s => storeResponse.data s) ∘ fun s => ({ data := s, err := none } : storeResponse)) =
        (id : List Byte → List Byte) := by
      funext s
      rfl
    rw [hdata, List.map_id]
    simp only [List.get]
    rw [hdec chunk]
    have hrest : readLoop c nodes objectPath paramsErr (i + 1) (entriesFrom (i + 1) rest) =
        { delivered := rest.flatten, closeErr := none } := by
      apply ih (i + 1)
      intro pos hpos
      have harith : i + 1 + pos = i + (pos + 1) := by omega
      have := hslices (pos + 1) (by simpa using hpos)
      rw [← harith] at this
      rw [this, List.get]
    rw [hrest]
    simp [List.flatten_cons]

/-- The entry `Put` builds for an object whose chunk sequence is `chunks`
(checksum fields are placeholder-valued in the source). -/
def newEntry (objectPath : String) (chunks : List (List Byte)) : StorageEntry :=
  { Path := objectPath, Md5sum := "md5sum", Crc := 24, Blocks := entriesFrom 0 chunks }

/-- After an honest `Put`, collecting the shards of chunk `pos` returns, in
backend order, exactly the shards `encode` produced, each with no error. -/
theorem getBlockSlices_storeAll (c : Codec) (objectPath : String)
    (chunks : List (List Byte)) (nodes : List Backend)
    (hget : ∀ b ∈ nodes, ∀ key, b.getFails key = false)
    (i pos : Nat) (hpos : pos < chunks.length)
    (hN : (c.encodeShards (chunks.get ⟨pos, hpos⟩)).length = nodes.length) :
    getBlockSlices (storeAll c objectPath i nodes chunks) (objectPath ++ "$" ++ itoa (i + pos)) =
      (c.encodeShards (chunks.get ⟨pos, hpos⟩)).map
        (fun s => { data := s, err := none }) := by
  have hlen : (storeAll c objectPath i nodes chunks).length = nodes.length :=
    storeAll_length c objectPath chunks i nodes
  apply List.ext_get
  · simp only [getBlockSlices, List.length_map, hlen, hN]
  · intro j hj1 hj2
    have hj : j < nodes.length := by
      simp only [getBlockSlices, List.length_map, hlen] at hj1
      exact hj1
    have hjs : j < (storeAll c objectPath i nodes chunks).length := by
      rw [hlen]
      exact hj
    have hjshard : j < (c.encodeShards (chunks.get ⟨pos, hpos⟩)).length := by
      rw [hN]
      exact hj
    simp only [getBlockSlices]
    rw [List.get_map, List.get_map]
    have hgf : ((storeAll c objectPath i nodes chunks).get ⟨j, hjs⟩).getFails
        (objectPath ++ "$" ++ itoa (i + pos)) = false := by
      obtain ⟨b, hb, -, hg⟩ := storeAll_mem c objectPath chunks i nodes _
        (List.get_mem _ _ _)
      rw [hg]
      exact hget b hb _
    have hlk := storeAll_lookup c objectPath chunks i nodes j hj hjs pos hpos
    rw [getSlice, Backend.get, hgf]
    simp only [Bool.false_eq_true, if_false, hlk]
    rw [List.getElem?_eq_getElem hjshard]
    rfl

/-- `putStream` on an error-free chunk stream, honest backends and enough
shards per chunk: the full success shape. -/
theorem putStream_ok (c : Codec) (e : EncodedStorage) (disk : Disk) (objectPath : String)
    (chunks : List (List Byte))
    (hparams : c.paramsOk = true)
    (hput : ∀ b ∈ disk.nodes, ∀ key, b.putFails key = false)
    (hlen : ∀ ch ∈ chunks, disk.nodes.length ≤ (c.encodeShards ch).length) :
    putStream c e disk objectPath (chunks.map (fun ch => { Data := ch, Err := none })) =
      some ({ e with objects := mapInsert e.objects objectPath (newEntry objectPath chunks) },
            { disk with nodes := storeAll c objectPath 0 disk.nodes chunks,
                        index := some (mapInsert e.objects objectPath (newEntry objectPath chunks)) },
            none) := by
  rw [putStream, putLoop_ok c objectPath chunks disk.nodes 0 [] hput hlen]
  simp [hparams, newEntry]

/-! ### Error paths of the `Put` chunk loop -/

theorem putLoop_err_of_msg (c : Codec) (objectPath : String) :
    ∀ (msgs : List SplitMessage) (nodes : List Backend) (i : Nat)
      (acc : List StorageBlockEntry),
      (∀ msg ∈ msgs, nodes.length ≤ (c.encodeShards msg.Data).length) →
      (∃ msg ∈ msgs, msg.Err ≠ none) →
      ∃ nodes' err, putLoop c objectPath nodes i acc msgs = some (nodes', .error err) := by
  intro msgs
  induction msgs with
  | nil => intro nodes i acc _ hmsg; simp at hmsg
  | cons msg rest ih =>
    intro nodes i acc hlen hmsg
    cases hE : msg.Err with
    | some err =>
      refine ⟨nodes, err, ?_⟩
      rw [putLoop, hE]
    | none =>
      obtain ⟨nodes1, errs, hsb, hlen1, -⟩ :=
        storeBlocksGo_some (objectPath ++ "$" ++ itoa i) (c.encodeShards msg.Data) nodes 0
          (by simpa using hlen msg (by simp))
      cases herrs : errs with
      | cons err0 errtl =>
        refine ⟨nodes1, err0, ?_⟩
        rw [putLoop, hE]
        simp only [Codec.encode, storeBlocks]
        rw [hsb, herrs]
      | nil =>
        rw [herrs] at hsb
        have hmsg' : ∃ m ∈ rest, m.Err ≠ none := by
          rcases hmsg with ⟨m, hm, hne⟩
          rcases List.mem_cons.1 hm with rfl | hm'
          · exact absurd hE hne
          · exact ⟨m, hm', hne⟩
        have hlen' : ∀ m ∈ rest, nodes1.length ≤ (c.encodeShards m.Data).length := by
          intro m hm
          rw [hlen1]
          exact hlen m (by simp [hm])
        obtain ⟨nodes', err, hrec⟩ :=
          ih nodes1 (i + 1) (acc ++ [{ Index := i, Length := msg.Data.length }]) hlen' hmsg'
        refine ⟨nodes', err, ?_⟩
        rw [putLoop, hE]
        simp only [Codec.encode, storeBlocks]
        rw [hsb]
        exact hrec

theorem putLoop_err_of_fail (c : Codec) (objectPath : String) :
    ∀ (msgs : List SplitMessage) (nodes : List Backend) (i : Nat)
      (acc : List StorageBlockEntry),
      (∀ msg ∈ msgs, nodes.length ≤ (c.encodeShards msg.Data).length) →
      (∃ (pos : Nat) (msg : SplitMessage), msgs[pos]? = some msg ∧
        ∃ (j : Nat) (hj : j < nodes.length),
          (nodes.get ⟨j, hj⟩).putFails (objectPath ++ "$" ++ itoa (i + pos)) = true) →
      ∃ nodes' err, putLoop c objectPath nodes i acc msgs = some (nodes', .error err) := by
  intro msgs
  induction msgs with
  | nil =>
    intro nodes i acc _ hfail
    obtain ⟨pos, msg, hpos, -⟩ := hfail
    simp at hpos
  | cons msg rest ih =>
    intro nodes i acc hlen hfail
    cases hE : msg.Err with
    | some err =>
      refine ⟨nodes, err, ?_⟩
      rw [putLoop, hE]
    | none =>
      obtain ⟨pos, msg0, hpos, j, hj, hputf⟩ := hfail
      cases pos with
      | zero =>
        rw [Nat.add_zero] at hputf
        obtain ⟨nodes1, errs, hsb, hne⟩ :=
          storeBlocksGo_fail (objectPath ++ "$" ++ itoa i) (c.encodeShards msg.Data) nodes 0 j hj
            (by simpa using hlen msg (by simp)) hputf
        cases herrs : errs with
        | nil => exact absurd herrs hne
        | cons err0 errtl =>
          refine ⟨nodes1, err0, ?_⟩
          rw [putLoop, hE]
          simp only [Codec.encode, storeBlocks]
          rw [herrs] at hsb
          rw [hsb]
      | succ pos =>
        obtain ⟨nodes1, errs, hsb, hlen1, hpres⟩ :=
          storeBlocksGo_some (objectPath ++ "$" ++ itoa i) (c.encodeShards msg.Data) nodes 0
            (by simpa using hlen msg (by simp))
        cases herrs : errs with
        | cons err0 errtl =>
          refine ⟨nodes1, err0, ?_⟩
          rw [putLoop, hE]
          simp only [Codec.encode, storeBlocks]
          rw [herrs] at hsb
          rw [hsb]
        | nil =>
          rw [herrs] at hsb
          have hj1 : j < nodes1.length := by
            rw [hlen1]
            exact hj
          have hfail' : ∃ (pos' : Nat) (msg' : SplitMessage), rest[pos']? = some msg' ∧
              ∃ (j' : Nat) (hj' : j' < nodes1.length),
                (nodes1.get ⟨j', hj'⟩).putFails (objectPath ++ "$" ++ itoa (i + 1 + pos')) = true := by
            refine ⟨pos, msg0, by simpa using hpos, j, hj1, ?_⟩
            have harith : i + 1 + pos = i + (pos + 1) := by omega
            rw [harith, (hpres j hj hj1).1]
            exact hputf
          have hlen' : ∀ m ∈ rest, nodes1.length ≤ (c.encodeShards m.Data).length := by
            intro m hm
            rw [hlen1]
            exact hlen m (by simp [hm])
          obtain ⟨nodes', err, hrec⟩ :=
            ih nodes1 (i + 1) (acc ++ [{ Index := i, Length := msg.Data.length }]) hlen' hfail'
          refine ⟨nodes', err, ?_⟩
          rw [putLoop, hE]
          simp only [Codec.encode, storeBlocks]
          rw [hsb]
          exact hrec

/-- Whenever `putStream` returns an error, neither the in-memory map nor the
durable index snapshot has been touched. -/
theorem putStream_err (c : Codec) (e : EncodedStorage) (disk : Disk) (objectPath : String)
    (msgs : List SplitMessage) (e' : EncodedStorage) (disk' : Disk) (err : Err)
    (h : putStream c e disk objectPath msgs = some (e', disk', some err)) :
    e'.objects = e.objects ∧ disk'.index = disk.index := by
  by_cases hp : c.paramsOk = false
  · rw [putStream, if_pos hp] at h
    simp only [Option.some.injEq, Prod.mk.injEq] at h
    obtain ⟨he, hd, -⟩ := h
    rw [← he, ← hd]
    exact ⟨rfl, rfl⟩
  · rw [putStream, if_neg hp] at h
    cases hq : putLoop c objectPath disk.nodes 0 [] msgs with
    | none => rw [hq] at h; cases h
    | some res =>
      obtain ⟨nodes', out⟩ := res
      cases out with
      | error err0 =>
        rw [hq] at h
        simp only [Option.some.injEq, Prod.mk.injEq] at h
        obtain ⟨he, hd, -⟩ := h
        rw [← he, ← hd]
        exact ⟨rfl, rfl⟩
      | ok blockList =>
        rw [hq] at h
        simp only [Option.some.injEq, Prod.mk.injEq] at h
        exact absurd h.2.2 (by simp)

/-- Whenever `putStream` succeeds, the durable index snapshot is exactly the
new in-memory map, which binds the path to the fresh entry. -/
theorem putStream_success (c : Codec) (e : EncodedStorage) (disk : Disk) (objectPath : String)
    (msgs : List SplitMessage) (e' : EncodedStorage) (disk' : Disk)
    (h : putStream c e disk objectPath msgs = some (e', disk', none)) :
    disk'.index = some e'.objects ∧
    ∃ entry, e'.objects = mapInsert e.objects objectPath entry := by
  by_cases hp : c.paramsOk = false
  · rw [putStream, if_pos hp] at h
    simp at h
  · rw [putStream, if_neg hp] at h
    cases hq : putLoop c objectPath disk.nodes 0 [] msgs with
    | none => rw [hq] at h; cases h
    | some res =>
      obtain ⟨nodes', out⟩ := res
      cases out with
      | error err0 =>
        rw [hq] at h
        simp at h
      | ok blockList =>
        rw [hq] at h
        simp only [Option.some.injEq, Prod.mk.injEq] at h
        obtain ⟨he, hd, -⟩ := h
        rw [← he, ← hd]
        exact ⟨rfl, ⟨_, rfl⟩⟩

/-! ### Concrete fixtures used by the witnesses and counterexamples -/

/-- A concrete codec satisfying the spec's interface assumptions for 16
backends: every shard replicates the chunk and decode reads the first shard
back, checking the recorded length. -/
def testCodec : Codec :=
  { encodeShards := fun ch => ch :: List.replicate 15 ch,
    decode := fun shards len =>
      if (shards.headD []).length = len then .ok (shards.headD []) else .error ("bad shards"),
    paramsOk := true }

/-- An honest backend holding the given store. -/
def honestNode (s : List (String × List Byte)) : Backend :=
  { store := s, putFails := fun _ => false, getFails := fun _ => false }

/-- A fresh storage root with 16 honest empty backends. -/
def testDisk : Disk := { index := none, nodes := List.replicate 16 (honestNode []) }

/-- A fresh engine with K=10, M=6 and a 2-byte block size. -/
def testEngine : EncodedStorage :=
  { RootDir := "r", K := 10, M := 6, BlockSize := 2, objects := [] }

theorem testCodec_dec (ch : List Byte) :
    testCodec.decode (testCodec.encodeShards ch) ch.length = .ok ch := by
  simp [testCodec]

theorem testCodec_len (ch : List Byte) : (testCodec.encodeShards ch).length = 16 := by
  simp [testCodec]

theorem testDisk_len : testDisk.nodes.length = 16 := by
  simp [testDisk]

theorem testDisk_honest :
    ∀ b ∈ testDisk.nodes, ∀ key, b.putFails key = false ∧ b.getFails key = false := by
  intro b hb key
  have := List.eq_of_mem_replicate hb
  rw [this]
  exact ⟨rfl, rfl⟩

/-! ### Claim C1 -/

/-- Claim C1: for every object written by a `Put(path, data)` call that
returns nil, a subsequent `Get(path)` yields a stream that reproduces exactly
the original byte sequence, for every data length (0 bytes, several chunks,
lengths not divisible by the chunk size), under the interface assumptions
that decode inverts encode, the codec yields one shard per backend, and every
backend is honest (its `get` returns the bytes previously `put` under the
same key). -/
theorem claim_C1_roundtrip (c : Codec) (e : EncodedStorage) (disk : Disk)
    (objectPath : String) (data : List Byte)
    (hparams : c.paramsOk = true)
    (hdec : ∀ ch : List Byte, c.decode (c.encodeShards ch) ch.length = .ok ch)
    (hN : ∀ ch : List Byte, (c.encodeShards ch).length = disk.nodes.length)
    (hput : ∀ b ∈ disk.nodes, ∀ key, b.putFails key = false)
    (hget : ∀ b ∈ disk.nodes, ∀ key, b.getFails key = false) :
    ∃ e' disk', Put c e disk objectPath data = some (e', disk', none) ∧
      Get c e' disk' objectPath = (some { delivered := data, closeErr := none }, none) := by
  have hps := putStream_ok c e disk objectPath (splitStream e.BlockSize data) hparams hput
    (fun ch _ => le_of_eq (hN ch).symm)
  refine ⟨_, _, hps, ?_⟩
  have hlk : mapLookup
      (mapInsert e.objects objectPath (newEntry objectPath (splitStream e.BlockSize data)))
      objectPath = some (newEntry objectPath (splitStream e.BlockSize data)) :=
    mapLookup_insert_self _ _ _
  simp only [Get, hlk]
  simp only [readObject, hparams, if_true, newEntry]
  rw [readLoop_ok c _ objectPath none hdec (splitStream e.BlockSize data) 0 ?hslices]
  · rw [splitStream_join]
  case hslices =>
    intro pos hpos
    exact getBlockSlices_storeAll c objectPath _ disk.nodes hget 0 pos hpos (hN _)

/-- Concrete instance of C1: a 5-byte object with a 2-byte block size
(three chunks, the last one short) written and read back intact. -/
theorem claim_C1_roundtrip_witness :
    ∃ e' disk', Put testCodec testEngine testDisk ("f") [1, 2, 3, 4, 5] = some (e', disk', none) ∧
      Get testCodec e' disk' ("f") =
        (some { delivered := [1, 2, 3, 4, 5], closeErr := none }, none) :=
  claim_C1_roundtrip testCodec testEngine testDisk ("f") [1, 2, 3, 4, 5] rfl
    testCodec_dec
    (fun ch => by rw [testCodec_len, testDisk_len])
    (fun b hb key => (testDisk_honest b hb key).1)
    (fun b hb key => (testDisk_honest b hb key).2)

/-! ### Claim C2 -/

/-- Shard store holding chunk 0 of object `obj` on every backend, as an honest
`Put` with `testCodec` would leave it. -/
def c2Store : List (String × List Byte) := [("obj" ++ "$" ++ itoa 0, [1, 2, 3])]

/-- 16 backends: backend 0 answers every read with an error, backends 1-15 are
intact and hold their shards. -/
def c2Nodes : List Backend :=
  { store := c2Store, putFails := fun _ => false, getFails := fun _ => true } ::
    List.replicate 15 (honestNode c2Store)

/-- The index entry for the one-chunk object `[1, 2, 3]`. -/
def c2Entry : StorageEntry :=
  { Path := "obj", Md5sum := "md5sum", Crc := 24, Blocks := [{ Index := 0, Length := 3 }] }

/-- Claim C2 (code bug): with K=10, M=6, a single failing backend (1 ≤ M)
among the 16 — the other 15 ≥ K intact — `readObject` terminates the stream
without delivering the chunk, even though the codec can reconstruct it; the
read path aborts on the first backend error instead of decoding from the
remaining shards. -/
theorem claim_C2_read_aborts_on_single_backend_error :
    readObject testCodec c2Nodes ("obj") c2Entry = { delivered := [], closeErr := none } ∧
    testCodec.decode (testCodec.encodeShards [1, 2, 3]) 3 = .ok [1, 2, 3] ∧
    ¬ (readObject testCodec c2Nodes ("obj") c2Entry).delivered = [1, 2, 3] := by
  exact ⟨rfl, rfl, by decide⟩

/-! ### Claim C5 -/

/-- Claim C5 (code bug): `NewStorage` always provisions exactly 16 backends and
never checks them against K+M; constructing an engine with K=1, M=1 succeeds
with 16 ≠ K+M backends instead of failing. -/
theorem claim_C5_newstorage_ignores_km :
    ∃ e disk', NewStorage { index := none, nodes := [] } ("root") 1 1 4096 = .ok (e, disk') ∧
      disk'.nodes.length = 16 ∧ e.K + e.M = 2 ∧ ¬ disk'.nodes.length = e.K + e.M := by
  refine ⟨_, _, rfl, ?_, rfl, ?_⟩
  · simp [NewStorage]
  · simp [NewStorage]

/-! ### Claim C6 -/

/-- Claim C6: `Get` on a path that is not in the index returns a nil stream
and a nil error — absence is an empty result, never a failure. -/
theorem claim_C6_missing_object (c : Codec) (e : EncodedStorage) (disk : Disk)
    (objectPath : String) (h : mapLookup e.objects objectPath = none) :
    Get c e disk objectPath = (none, none) := by
  simp only [Get, h]

/-- Concrete instance of C6: a never-written path on a fresh engine. -/
theorem claim_C6_missing_object_witness :
    Get testCodec testEngine testDisk ("absent") = (none, none) :=
  claim_C6_missing_object testCodec testEngine testDisk ("absent") rfl

/-! ### Claim C7 -/

/-- Shard store holding both chunks of the two-chunk object `[10, 20, 30]`
(block size 2). -/
def c7Store : List (String × List Byte) :=
  [("obj" ++ "$" ++ itoa 0, [10, 20]), ("obj" ++ "$" ++ itoa 1, [30])]

/-- Backend 2 fails reads of chunk 1's key only; everything else is intact. -/
def c7Bad : Backend :=
  { store := c7Store, putFails := fun _ => false,
    getFails := fun k => k == ("obj" ++ "$" ++ itoa 1) }

/-- 16 backends, all intact except that backend 2 errors on chunk 1's key. -/
def c7Nodes : List Backend :=
  honestNode c7Store :: honestNode c7Store :: c7Bad :: List.replicate 13 (honestNode c7Store)

/-- The index entry for the two-chunk object. -/
def c7Entry : StorageEntry :=
  { Path := "obj", Md5sum := "md5sum", Crc := 24,
    Blocks := [{ Index := 0, Length := 2 }, { Index := 1, Length := 1 }] }

/-- Claim C7 (code bug): when the shard collection for chunk 1 reports an
error (backend 2's `get` fails with `get failed`), the loop does stop and the
bytes already delivered for chunk 0 remain — but the stream is closed with the
shadowed nil `err` from `ParseEncoderParams`, not with the shard-collection
error: the consumer observes a clean EOF (`closeErr = none`) after a
truncated object. -/
theorem claim_C7_shard_error_not_propagated :
    readObject testCodec c7Nodes ("obj") c7Entry = { delivered := [10, 20], closeErr := none } ∧
    (getSlice c7Bad ("obj" ++ "$" ++ itoa 1)).err = some ("get failed") := by
  exact ⟨rfl, rfl⟩

/-! ### Claim C3 -/

/-- Claim C3: whenever the chunker reports an error, or some backend write of
some chunk fails, `Put` returns a non-nil error and no index entry is created
or replaced for the path — in memory or in the durable snapshot — so after
reopening the engine against the same storage root a previously absent path is
still absent.  (The shard-count hypothesis rules out the unrelated
out-of-bounds panic of C10.) -/
theorem claim_C3_failed_put_leaves_index_unchanged (c : Codec) (e : EncodedStorage)
    (disk : Disk) (objectPath : String) (msgs : List SplitMessage)
    (hlen : ∀ msg ∈ msgs, disk.nodes.length ≤ (c.encodeShards msg.Data).length)
    (hcause : (∃ msg ∈ msgs, msg.Err ≠ none) ∨
      (∃ (pos : Nat) (msg : SplitMessage), msgs[pos]? = some msg ∧
        ∃ (j : Nat) (hj : j < disk.nodes.length),
          (disk.nodes.get ⟨j, hj⟩).putFails (objectPath ++ "$" ++ itoa pos) = true)) :
    ∃ e' disk' err, putStream c e disk objectPath msgs = some (e', disk', some err) ∧
      e'.objects = e.objects ∧ disk'.index = disk.index ∧
      ∀ (r2 : String) (k2 m2 bs2 : Nat),
        mapLookup (disk.index.getD []) objectPath = none →
        ∃ e2 disk2, NewStorage disk' r2 k2 m2 bs2 = .ok (e2, disk2) ∧
          mapLookup e2.objects objectPath = none := by
  by_cases hp : c.paramsOk = false
  · refine ⟨e, disk, "params error", ?_, rfl, rfl, ?_⟩
    · rw [putStream, if_pos hp]
    · intro r2 k2 m2 bs2 hmiss
      exact ⟨_, _, rfl, hmiss⟩
  · have hloop : ∃ nodes' err,
        putLoop c objectPath disk.nodes 0 [] msgs = some (nodes', .error err) := by
      rcases hcause with hmsg | ⟨pos, msg, hpos, j, hj, hfail⟩
      · exact putLoop_err_of_msg c objectPath msgs disk.nodes 0 [] hlen hmsg
      · refine putLoop_err_of_fail c objectPath msgs disk.nodes 0 [] hlen
          ⟨pos, msg, hpos, j, hj, ?_⟩
        rw [Nat.zero_add]
        exact hfail
    obtain ⟨nodes', err, hloop⟩ := hloop
    refine ⟨e, { disk with nodes := nodes' }, err, ?_, rfl, rfl, ?_⟩
    · rw [putStream, if_neg hp, hloop]
    · intro r2 k2 m2 bs2 hmiss
      exact ⟨_, _, rfl, hmiss⟩

/-- A storage root whose backend 0 refuses every write. -/
def c3Disk : Disk :=
  { index := none,
    nodes := { store := [], putFails := fun _ => true, getFails := fun _ => false } ::
      List.replicate 15 (honestNode []) }

/-- Concrete instance of C3: a `Put` whose first chunk write fails on backend 0
returns an error, leaves the in-memory map and the index file untouched, and
the path is absent after reopening. -/
theorem claim_C3_failed_put_leaves_index_unchanged_witness :
    ∃ e' disk' err,
      putStream testCodec testEngine c3Disk ("a") (splitMessages 2 [7, 8]) =
        some (e', disk', some err) ∧
      e'.objects = testEngine.objects ∧ disk'.index = c3Disk.index ∧
      ∀ (r2 : String) (k2 m2 bs2 : Nat),
        mapLookup (c3Disk.index.getD []) ("a") = none →
        ∃ e2 disk2, NewStorage disk' r2 k2 m2 bs2 = .ok (e2, disk2) ∧
          mapLookup e2.objects ("a") = none :=
  claim_C3_failed_put_leaves_index_unchanged testCodec testEngine c3Disk ("a")
    (splitMessages 2 [7, 8])
    (by
      intro msg hm
      rw [testCodec_len]
      simp [c3Disk])
    (Or.inr ⟨0, { Data := [7, 8], Err := none }, rfl, 0, by simp [c3Disk], rfl⟩)

/-! ### Claim C4 -/

/-- Claim C4: `Put` is all-or-nothing for the index.  If `Put` returns nil,
the durable snapshot equals the new in-memory map, the path is present, and
reopening the engine against the same root reports the object present with
the identical `StorageEntry`.  If `Put` returns a non-nil error, neither the
in-memory map nor the durable snapshot has changed. -/
theorem claim_C4_put_atomicity (c : Codec) (e : EncodedStorage) (disk : Disk)
    (objectPath : String) (data : List Byte) :
    (∀ e' disk', Put c e disk objectPath data = some (e', disk', none) →
      disk'.index = some e'.objects ∧
      (∃ entry, mapLookup e'.objects objectPath = some entry) ∧
      ∀ (r2 : String) (k2 m2 bs2 : Nat), ∃ e2 disk2,
        NewStorage disk' r2 k2 m2 bs2 = .ok (e2, disk2) ∧
        mapLookup e2.objects objectPath = mapLookup e'.objects objectPath) ∧
    (∀ e' disk' err, Put c e disk objectPath data = some (e', disk', some err) →
      e'.objects = e.objects ∧ disk'.index = disk.index) := by
  constructor
  · intro e' disk' h
    obtain ⟨hidx, entry, hobj⟩ := putStream_success c e disk objectPath _ e' disk' h
    refine ⟨hidx, ⟨entry, ?_⟩, ?_⟩
    · rw [hobj]
      exact mapLookup_insert_self _ _ _
    · intro r2 k2 m2 bs2
      refine ⟨_, _, rfl, ?_⟩
      show mapLookup (disk'.index.getD []) objectPath = mapLookup e'.objects objectPath
      rw [hidx]
      rfl
  · intro e' disk' err h
    exact putStream_err c e disk objectPath _ e' disk' err h

/-- Concrete instance of C4: a successful 3-byte `Put` leaves the snapshot
equal to the new map, with the path present, and present again on reopen. -/
theorem claim_C4_put_atomicity_witness :
    ∃ e' disk',
      Put testCodec testEngine testDisk ("a") [1, 2, 3] = some (e', disk', none) ∧
      disk'.index = some e'.objects ∧
      (∃ entry, mapLookup e'.objects ("a") = some entry) ∧
      ∃ e2 disk2, NewStorage disk' ("r2") 10 6 2 = .ok (e2, disk2) ∧
        mapLookup e2.objects ("a") = mapLookup e'.objects ("a") := by
  have hps := putStream_ok testCodec testEngine testDisk ("a") (splitStream 2 [1, 2, 3]) rfl
    (fun b hb key => (testDisk_honest b hb key).1)
    (fun ch _ => by rw [testCodec_len, testDisk_len])
  have h := (claim_C4_put_atomicity testCodec testEngine testDisk ("a") [1, 2, 3]).1 _ _ hps
  obtain ⟨hidx, hentry, hre⟩ := h
  exact ⟨_, _, hps, hidx, hentry, hre ("r2") 10 6 2⟩

/-! ### Claim C8 -/

/-- Claim C8: for every chunk `i` of every object, the shard key used against
every backend is `path + "$" + i`; after a successful `Put`, backend `j` holds
shard `j` of each chunk under that key, and `getBlockSlices` — the read path,
using the same derived key — returns one result per backend in stable
backend-index order, the `j`-th result carrying backend `j`'s shard. -/
theorem claim_C8_shard_keys_and_order (c : Codec) (e : EncodedStorage) (disk : Disk)
    (objectPath : String) (chunks : List (List Byte))
    (hparams : c.paramsOk = true)
    (hput : ∀ b ∈ disk.nodes, ∀ key, b.putFails key = false)
    (hget : ∀ b ∈ disk.nodes, ∀ key, b.getFails key = false)
    (hN : ∀ ch : List Byte, (c.encodeShards ch).length = disk.nodes.length) :
    ∃ e' disk',
      putStream c e disk objectPath (chunks.map (fun ch => { Data := ch, Err := none })) =
        some (e', disk', none) ∧
      disk'.nodes.length = disk.nodes.length ∧
      ∀ (pos : Nat) (hpos : pos < chunks.length),
        (∀ (j : Nat) (hj : j < disk'.nodes.length),
          mapLookup ((disk'.nodes.get ⟨j, hj⟩).store) (objectPath ++ "$" ++ itoa pos) =
            (c.encodeShards (chunks.get ⟨pos, hpos⟩))[j]?) ∧
        (getBlockSlices disk'.nodes (objectPath ++ "$" ++ itoa pos)).length =
          disk'.nodes.length ∧
        (∀ (j : Nat), j < disk'.nodes.length →
          (getBlockSlices disk'.nodes (objectPath ++ "$" ++ itoa pos))[j]? =
            ((c.encodeShards (chunks.get ⟨pos, hpos⟩))[j]?).map
              (fun s => { data := s, err := none })) := by
  have hps := putStream_ok c e disk objectPath chunks hparams hput
    (fun ch _ => le_of_eq (hN ch).symm)
  refine ⟨_, _, hps, ?_, ?_⟩
  · exact storeAll_length c objectPath chunks 0 disk.nodes
  · intro pos hpos
    have hsl : (storeAll c objectPath 0 disk.nodes chunks).length = disk.nodes.length :=
      storeAll_length c objectPath chunks 0 disk.nodes
    refine ⟨?_, ?_, ?_⟩
    · intro j hj
      have hj0 : j < (storeAll c objectPath 0 disk.nodes chunks).length := hj
      have hjn : j < disk.nodes.length := by rw [← hsl]; exact hj0
      have hjs : j < (c.encodeShards (chunks.get ⟨pos, hpos⟩)).length := by
        rw [hN]
        exact hjn
      have hlk := storeAll_lookup c objectPath chunks 0 disk.nodes j hjn hj0 pos hpos
      rw [Nat.zero_add] at hlk
      show mapLookup ((storeAll c objectPath 0 disk.nodes chunks).get ⟨j, hj0⟩).store
          (objectPath ++ "$" ++ itoa pos) = (c.encodeShards (chunks.get ⟨pos, hpos⟩))[j]?
      rw [hlk, List.getElem?_eq_getElem hjs]
      rfl
    · show (getBlockSlices (storeAll c objectPath 0 disk.nodes chunks)
          (objectPath ++ "$" ++ itoa pos)).length =
        (storeAll c objectPath 0 disk.nodes chunks).length
      simp [getBlockSlices]
    · intro j hj
      have hglue := getBlockSlices_storeAll c objectPath chunks disk.nodes hget 0 pos hpos
        (hN _)
      rw [Nat.zero_add] at hglue
      have hjn : j < disk.nodes.length := by rw [← hsl]; exact hj
      have hjs : j < (c.encodeShards (chunks.get ⟨pos, hpos⟩)).length := by
        rw [hN]
        exact hjn
      show (getBlockSlices (storeAll c objectPath 0 disk.nodes chunks)
          (objectPath ++ "$" ++ itoa pos))[j]? = _
      rw [hglue, List.getElem?_map]

/-- Concrete instance of C8: the 5-byte, three-chunk object of C1. -/
theorem claim_C8_shard_keys_and_order_witness :
    ∃ e' disk',
      putStream testCodec testEngine testDisk ("f")
          ([[1, 2], [3, 4], [5]].map (fun ch => { Data := ch, Err := none })) =
        some (e', disk', none) ∧
      disk'.nodes.length = testDisk.nodes.length ∧
      ∀ (pos : Nat) (hpos : pos < ([[1, 2], [3, 4], [5]] : List (List Byte)).length),
        (∀ (j : Nat) (hj : j < disk'.nodes.length),
          mapLookup ((disk'.nodes.get ⟨j, hj⟩).store) ("f" ++ "$" ++ itoa pos) =
            (testCodec.encodeShards (([[1, 2], [3, 4], [5]] : List (List Byte)).get
              ⟨pos, hpos⟩))[j]?) ∧
        (getBlockSlices disk'.nodes ("f" ++ "$" ++ itoa pos)).length = disk'.nodes.length ∧
        (∀ (j : Nat), j < disk'.nodes.length →
          (getBlockSlices disk'.nodes ("f" ++ "$" ++ itoa pos))[j]? =
            ((testCodec.encodeShards (([[1, 2], [3, 4], [5]] : List (List Byte)).get
              ⟨pos, hpos⟩))[j]?).map (fun s => { data := s, err := none })) :=
  claim_C8_shard_keys_and_order testCodec testEngine testDisk ("f") [[1, 2], [3, 4], [5]] rfl
    (fun b hb key => (testDisk_honest b hb key).1)
    (fun b hb key => (testDisk_honest b hb key).2)
    (fun ch => by rw [testCodec_len, testDisk_len])

/-! ### Claim C9 -/

/-- Claim C9: after every successful `Put`, the entry's `Blocks` lists one
`StorageBlockEntry` per chunk in chunk order with `Index` equal to its
position (starting at 0, no gaps) and `Length` equal to the chunk's original
pre-encoding byte length. -/
theorem claim_C9_block_entries (c : Codec) (e : EncodedStorage) (disk : Disk)
    (objectPath : String) (data : List Byte)
    (hparams : c.paramsOk = true)
    (hput : ∀ b ∈ disk.nodes, ∀ key, b.putFails key = false)
    (hlen : ∀ ch : List Byte, disk.nodes.length ≤ (c.encodeShards ch).length) :
    ∃ e' disk', Put c e disk objectPath data = some (e', disk', none) ∧
      ∃ entry, mapLookup e'.objects objectPath = some entry ∧
        entry.Blocks = entriesFrom 0 (splitStream e.BlockSize data) ∧
        entry.Blocks.length = (splitStream e.BlockSize data).length ∧
        (∀ (pos : Nat) (h1 : pos < entry.Blocks.length),
          (entry.Blocks.get ⟨pos, h1⟩).Index = pos) ∧
        (∀ (pos : Nat) (h1 : pos < entry.Blocks.length)
          (h2 : pos < (splitStream e.BlockSize data).length),
          (entry.Blocks.get ⟨pos, h1⟩).Length =
            ((splitStream e.BlockSize data).get ⟨pos, h2⟩).length) := by
  have hps := putStream_ok c e disk objectPath (splitStream e.BlockSize data) hparams hput
    (fun ch _ => hlen ch)
  refine ⟨_, _, hps, newEntry objectPath (splitStream e.BlockSize data), ?_, rfl, ?_, ?_, ?_⟩
  · exact mapLookup_insert_self _ _ _
  · exact entriesFrom_length 0 _
  · intro pos h1
    have h2 : pos < (splitStream e.BlockSize data).length := by
      rw [← entriesFrom_length 0 (splitStream e.BlockSize data)]
      exact h1
    show ((entriesFrom 0 (splitStream e.BlockSize data)).get ⟨pos, h1⟩).Index = pos
    rw [entriesFrom_get _ 0 pos h1 h2]
    simp
  · intro pos h1 h2
    show ((entriesFrom 0 (splitStream e.BlockSize data)).get ⟨pos, h1⟩).Length =
      ((splitStream e.BlockSize data).get ⟨pos, h2⟩).length
    rw [entriesFrom_get _ 0 pos h1 h2]

/-- The chunker on a constant stream, one full chunk at a time. -/
theorem splitGo_nil (blockSize fuel : Nat) : splitGo blockSize fuel [] = [] := by
  cases fuel with
  | zero => rfl
  | succ fuel => rfl

theorem splitGo_replicate_last (blockSize : Nat) (a : Byte) (fuel n : Nat)
    (h0 : 0 < n) (hle : n ≤ blockSize) :
    splitGo blockSize fuel (List.replicate n a) = [List.replicate n a] := by
  have hne : (List.replicate n a).isEmpty = false := by
    cases n with
    | zero => omega
    | succ n => simp [List.replicate_succ]
  cases fuel with
  | zero =>
    rw [splitGo, hne]
    simp
  | succ fuel =>
    rw [splitGo, hne]
    have hbs : ¬ blockSize = 0 := by omega
    simp only [Bool.false_eq_true, if_false, hbs]
    rw [List.take_replicate, List.drop_replicate]
    have hmin : min blockSize n = n := by omega
    have hsub : n - blockSize = 0 := by omega
    rw [hmin, hsub]
    simp [splitGo_nil]

theorem splitGo_replicate_step (blockSize : Nat) (a : Byte) (fuel n : Nat)
    (hbs : 0 < blockSize) (hlt : blockSize < n) (hfuel : n ≤ fuel) :
    splitGo blockSize fuel (List.replicate n a) =
      List.replicate blockSize a ::
        splitGo blockSize (fuel - 1) (List.replicate (n - blockSize) a) := by
  have hne : (List.replicate n a).isEmpty = false := by
    cases n with
    | zero => omega
    | succ n => simp [List.replicate_succ]
  cases fuel with
  | zero => omega
  | succ fuel =>
    rw [splitGo, hne]
    have hbs0 : ¬ blockSize = 0 := by omega
    simp only [Bool.false_eq_true, if_false, hbs0]
    rw [List.take_replicate, List.drop_replicate]
    have hmin : min blockSize n = blockSize := by omega
    rw [hmin]
    rfl

/-- Concrete instance of C9, the spec's concrete scenario: block size 4096,
a 10000-byte object — exactly 3 `StorageBlockEntry` records with lengths
4096, 4096, 1808 in that order, indices 0, 1, 2. -/
theorem claim_C9_block_entries_witness :
    ∃ e' disk',
      Put testCodec { RootDir := "r", K := 10, M := 6, BlockSize := 4096, objects := [] }
          testDisk ("x") (List.replicate 10000 7) = some (e', disk', none) ∧
      ∃ entry, mapLookup e'.objects ("x") = some entry ∧
        entry.Blocks = [{ Index := 0, Length := 4096 }, { Index := 1, Length := 4096 },
          { Index := 2, Length := 1808 }] := by
  obtain ⟨e', disk', hput, entry, hlk, hBlocks, -, -, -⟩ :=
    claim_C9_block_entries testCodec
      { RootDir := "r", K := 10, M := 6, BlockSize := 4096, objects := [] }
      testDisk ("x") (List.replicate 10000 7) rfl
      (fun b hb key => (testDisk_honest b hb key).1)
      (fun ch => by rw [testCodec_len, testDisk_len])
  refine ⟨e', disk', hput, entry, hlk, ?_⟩
  rw [hBlocks]
  have hsplit : splitStream 4096 (List.replicate 10000 (7 : Byte)) =
      [List.replicate 4096 7, List.replicate 4096 7, List.replicate 1808 7] := by
    rw [splitStream, List.length_replicate]
    rw [splitGo_replicate_step 4096 7 10000 10000 (by omega) (by omega) (by omega)]
    have h1 : (10000 : Nat) - 4096 = 5904 := by norm_num
    have hf1 : (10000 : Nat) - 1 = 9999 := by norm_num
    rw [h1, hf1]
    rw [splitGo_replicate_step 4096 7 9999 5904 (by omega) (by omega) (by omega)]
    have h2 : (5904 : Nat) - 4096 = 1808 := by norm_num
    have hf2 : (9999 : Nat) - 1 = 9998 := by norm_num
    rw [h2, hf2]
    rw [splitGo_replicate_last 4096 7 9998 1808 (by omega) (by omega)]
  rw [hsplit]
  simp only [entriesFrom, List.length_replicate]

/-! ### Claim C10 -/

/-- Claim C10: `storeBlocks` indexes the shard slice at positions 0 through 15
(one per provisioned backend) regardless of the slice's length, so with fewer
than 16 shards per chunk the Go code hits an index-out-of-range panic
(modelled as `none`) during `Put`; the accesses are in bounds exactly when the
encoder produces at least 16 shards. -/
theorem claim_C10_out_of_bounds (nodes : List Backend) (p : String)
    (h16 : nodes.length = 16) :
    (∀ blocks : List (List Byte), blocks.length < 16 → storeBlocks nodes p blocks = none) ∧
    (∀ blocks : List (List Byte), 16 ≤ blocks.length → ¬ storeBlocks nodes p blocks = none) ∧
    (∀ (c : Codec) (e : EncodedStorage) (disk : Disk) (msg : SplitMessage)
      (msgs : List SplitMessage),
      disk.nodes = nodes → c.paramsOk = true → msg.Err = none →
      (c.encodeShards msg.Data).length < 16 →
      putStream c e disk p (msg :: msgs) = none) := by
  refine ⟨?_, ?_, ?_⟩
  · intro blocks hb
    exact storeBlocksGo_none p blocks nodes 0 (by omega) (by omega)
  · intro blocks hb h
    obtain ⟨nodes', errs, hsb, -, -⟩ := storeBlocksGo_some p blocks nodes 0 (by omega)
    rw [storeBlocks, hsb] at h
    cases h
  · intro c e disk msg msgs hnodes hparams hErr hshort
    have hsb : storeBlocks disk.nodes (p ++ "$" ++ itoa 0) (c.encodeShards msg.Data) = none := by
      rw [hnodes]
      exact storeBlocksGo_none _ _ nodes 0 (by omega) (by omega)
    rw [putStream, if_neg (by simp [hparams])]
    rw [putLoop, hErr]
    simp only [Codec.encode]
    rw [hsb]

/-- A codec producing only K+M = 2 shards per chunk. -/
def smallCodec : Codec :=
  { encodeShards := fun ch => [ch, ch],
    decode := fun _ _ => .error ("undecodable"),
    paramsOk := true }

/-- Concrete instance of C10: with 16 backends, a 2-shard slice panics, a
16-shard slice does not, and a whole `Put` with a K+M = 2 codec panics. -/
theorem claim_C10_out_of_bounds_witness :
    storeBlocks testDisk.nodes ("k") (List.replicate 2 ([] : List Byte)) = none ∧
    ¬ storeBlocks testDisk.nodes ("k") (List.replicate 16 ([] : List Byte)) = none ∧
    putStream smallCodec testEngine testDisk ("k") [{ Data := [1], Err := none }] = none := by
  have h := claim_C10_out_of_bounds testDisk.nodes ("k") testDisk_len
  refine ⟨h.1 _ (by simp), h.2.1 _ (by simp), ?_⟩
  exact h.2.2 smallCodec testEngine testDisk { Data := [1], Err := none } [] rfl rfl rfl
    (by simp [smallCodec])

end Minio
